import Mathlib

/-!
Verification development for the PII privacy backend
(`pii_dependency_handler.py`, `faker_masking.py`, `model_wrapper.py`, `app.py`).

Text is modelled as `List Char` (the inputs of interest are ASCII).  Python
string primitives (`in`, `str.find`, `str.replace`, slicing) are embedded as
executable functions on `List Char`; the regular expressions used by the
handler are embedded as explicit backtracking matchers with the same
leftmost / first-alternative / greedy-with-backtracking semantics on ASCII
text.  The random synthetic values drawn from the seeded Faker stream are
modelled as an explicit list of values consumed in order.
-/

/-- ASCII lower-casing of one character, as `str.lower` acts on ASCII text. -/
def lowerC (c : Char) : Char :=
  if 'A' ≤ c ∧ c ≤ 'Z' then Char.ofNat (c.toNat + 32) else c

/-- ASCII lower-casing of a whole text. -/
def lowerS (s : List Char) : List Char := s.map lowerC

/-- Python regex `\s` (ASCII whitespace classes). -/
def isSpaceC (c : Char) : Bool :=
  c = ' ' ∨ c = '\t' ∨ c = '\n' ∨ c = '\r' ∨ c = Char.ofNat 11 ∨ c = Char.ofNat 12

/-- Python regex `\w` on ASCII text: letters, digits and underscore. -/
def isWordC (c : Char) : Bool := c.isAlpha || c.isDigit || c = '_'

/-- The character of `t` at index `i`, if any. -/
def charAt (t : List Char) (i : Nat) : Option Char := t[i]?

/-- Is the character at index `i` (if any) a word character? -/
def wordAt (t : List Char) (i : Nat) : Bool :=
  match charAt t i with
  | some c => isWordC c
  | none => false

/-- Python regex `\b`: a word boundary sits at position `p` when exactly one
of the characters around `p` is a word character (positions outside the text
count as non-word). -/
def boundaryAt (t : List Char) (p : Nat) : Bool :=
  (if p = 0 then false else wordAt t (p - 1)) != wordAt t p

/-- Length of the maximal run of `pred`-characters at the head of a list. -/
def runLenAux (pred : Char → Bool) : List Char → Nat
  | [] => 0
  | c :: r => if pred c then runLenAux pred r + 1 else 0

/-- Length of the maximal run of `pred`-characters of `t` starting at `p`. -/
def runLen (pred : Char → Bool) (t : List Char) (p : Nat) : Nat :=
  runLenAux pred (t.drop p)

/-- Python regex `\d{n}` at position `p`: the next `n` characters exist and
are all digits. -/
def digitsAt (t : List Char) (p n : Nat) : Bool :=
  ((t.drop p).take n).length = n && ((t.drop p).take n).all Char.isDigit

/-- The slice `t[p:e]` of the text, as Python slicing produces it. -/
def sliceStr (t : List Char) (p e : Nat) : List Char := (t.drop p).take (e - p)

/-- `occursAt v t p`: the string `v` occurs in `t` at position `p`. -/
def occursAt (v t : List Char) (p : Nat) : Prop := v <+: t.drop p

instance (v t : List Char) (p : Nat) : Decidable (occursAt v t p) :=
  inferInstanceAs (Decidable (v <+: t.drop p))

/-- Python `v in t` (substring containment). -/
def containsStr (t v : List Char) : Bool :=
  (List.range (t.length + 1)).any fun p => v.isPrefixOf (t.drop p)

/-- Python `t.find(v)`: index of the first occurrence of `v`, if any. -/
def findSub (t v : List Char) : Option Nat :=
  (List.range (t.length + 1)).find? fun p => v.isPrefixOf (t.drop p)

/-- Python `t.replace(pat, rep, 1)`: replace the first occurrence only. -/
def replaceFirst (pat rep : List Char) : List Char → List Char
  | [] => if pat.isEmpty then rep else []
  | c :: t =>
    if pat.isPrefixOf (c :: t) then rep ++ (c :: t).drop pat.length
    else c :: replaceFirst pat rep t

/-- Worker for `replaceAll`; the fuel is an upper bound on the length of the
remaining text, so it never runs out when started with the text's length. -/
def replaceAllAux (pat rep : List Char) : Nat → List Char → List Char
  | 0, t => t
  | fuel + 1, t =>
    match t with
    | [] => []
    | c :: t' =>
      if !pat.isEmpty && pat.isPrefixOf (c :: t') then
        rep ++ replaceAllAux pat rep fuel ((c :: t').drop pat.length)
      else c :: replaceAllAux pat rep fuel t'

/-- Python `t.replace(pat, rep)`: replace all non-overlapping occurrences,
scanning left to right. -/
def replaceAll (pat rep t : List Char) : List Char :=
  replaceAllAux pat rep t.length t

/-- Python `d[k] = v` on an insertion-ordered dict modelled as an
association list: an existing key keeps its position and gets the new value,
a new key is appended at the end. -/
def dictInsert : List (List Char × List Char) → List Char → List Char →
    List (List Char × List Char)
  | [], k, v => [(k, v)]
  | (k', v') :: rest, k, v =>
    if k' = k then (k', v) :: rest else (k', v') :: dictInsert rest k v

/-- `re.findall(r'\d+', t)`: the maximal digit runs of `t`, left to right
(fuel-based scanner; fuel bounds the remaining length). -/
def digitRunsAux : Nat → List Char → List (List Char)
  | 0, _ => []
  | _ + 1, [] => []
  | fuel + 1, c :: t =>
    if c.isDigit then
      (c :: t.takeWhile Char.isDigit) :: digitRunsAux fuel (t.dropWhile Char.isDigit)
    else digitRunsAux fuel t

/-- `re.findall(r'\d+', t)`. -/
def digitRuns (t : List Char) : List (List Char) := digitRunsAux (t.length + 1) t

/-- Numeric value of a digit run, as Python `int` parses it. -/
def natOfDigits (ds : List Char) : Nat :=
  ds.foldl (fun acc c => 10 * acc + (c.toNat - '0'.toNat)) 0

/-- Python `str(n)` for a natural number. -/
def natStr (n : Nat) : List Char := Nat.toDigits 10 n

/-- Python `' + '.join(runs)`. -/
def joinPlus : List (List Char) → List Char
  | [] => []
  | [r] => r
  | r :: rs => r ++ (" + ".data) ++ joinPlus rs

/-- Sum of the digit characters of a string, as
`sum(int(d) for d in s if d.isdigit())` computes it. -/
def digitSum (s : List Char) : Nat :=
  (s.filter Char.isDigit).foldl (fun acc c => acc + (c.toNat - '0'.toNat)) 0

/-! ### Regex matchers of `pii_dependency_handler.PIIDependencyHandler.pii_patterns`

Each `matchXAt t p` decides whether the pattern matches at position `p`
(Python `re` semantics: first alternative wins, optional pieces are greedy
with backtracking) and returns the end position of the match. -/

/-- The separator class `[-.\s]` of the phone pattern. -/
def phoneSepC (c : Char) : Bool := c = '-' || c = '.' || isSpaceC c

/-- The separator class `[-\s]` of the credit-card pattern. -/
def ccSepC (c : Char) : Bool := c = '-' || isSpaceC c

/-- Consume one optional separator: when `s` is true the character at `q`
must belong to `sep` and the position advances, otherwise stay at `q`. -/
def sepAdv (t : List Char) (q : Nat) (s : Bool) (sep : Char → Bool) : Option Nat :=
  if s then
    match charAt t q with
    | some c => if sep c then some (q + 1) else none
    | none => none
  else some q

/-- One backtracking branch of `\b\d{3}[-.\s]?\d{3}[-.\s]?\d{4}\b`
(`s1`, `s2` say whether the optional separators are taken). -/
def phoneAlt2Try (t : List Char) (p : Nat) (s1 s2 : Bool) : Option Nat :=
  if digitsAt t p 3 then
    (sepAdv t (p + 3) s1 phoneSepC).bind fun q1 =>
      if digitsAt t q1 3 then
        (sepAdv t (q1 + 3) s2 phoneSepC).bind fun q2 =>
          if digitsAt t q2 4 && boundaryAt t (q2 + 4) then some (q2 + 4) else none
      else none
  else none

/-- Handler phone pattern `\b\d{10}\b|\b\d{3}[-.\s]?\d{3}[-.\s]?\d{4}\b`. -/
def matchPhoneAt (t : List Char) (p : Nat) : Option Nat :=
  if boundaryAt t p then
    if digitsAt t p 10 && boundaryAt t (p + 10) then some (p + 10)
    else
      ([(true, true), (true, false), (false, true), (false, false)]).findSome?
        fun s => phoneAlt2Try t p s.1 s.2
  else none

/-- `FakerMasking` phone pattern `\b\d{10}\b` (`faker_masking.py`). -/
def matchPhoneFMAt (t : List Char) (p : Nat) : Option Nat :=
  if boundaryAt t p && digitsAt t p 10 && boundaryAt t (p + 10) then some (p + 10) else none

/-- Local-part class `[a-zA-Z0-9._%+-]` of the email pattern. -/
def localC (c : Char) : Bool :=
  c.isAlpha || c.isDigit || c = '.' || c = '_' || c = '%' || c = '+' || c = '-'

/-- Domain class `[a-zA-Z0-9.-]` of the email pattern. -/
def domainC (c : Char) : Bool := c.isAlpha || c.isDigit || c = '.' || c = '-'

/-- Check `\.[a-zA-Z]{2,}\b` with the literal dot placed so that the top
level domain starts at `z`. -/
def emailTldOk (t : List Char) (z : Nat) : Option Nat :=
  let T := runLen Char.isAlpha t z
  if 2 ≤ T && !(wordAt t (z + T)) then some (z + T) else none

/-- Backtracking over the split of the greedy domain run at `q` into
`[a-zA-Z0-9.-]+` followed by `\.[a-zA-Z]{2,}`: try the longest domain part
first, exactly as the regex engine does. -/
def emailTrySplit (t : List Char) (q : Nat) : Nat → Option Nat
  | 0 => none
  | d + 1 =>
    if charAt t (q + (d + 1)) = some '.' then
      match emailTldOk t (q + (d + 1) + 1) with
      | some e => some e
      | none => emailTrySplit t q d
    else emailTrySplit t q d

/-- Email pattern `\b[a-zA-Z0-9._%+-]+@[a-zA-Z0-9.-]+\.[a-zA-Z]{2,}\b`. -/
def matchEmailAt (t : List Char) (p : Nat) : Option Nat :=
  if boundaryAt t p then
    let L := runLen localC t p
    if L = 0 then none
    else if charAt t (p + L) = some '@' then
      let q := p + L + 1
      let D := runLen domainC t q
      if D = 0 then none else emailTrySplit t q (D - 1)
    else none
  else none

/-- The apostrophe character (kept out of string literals). -/
def apos : Char := Char.ofNat 39

/-- The name cues `my name is|i am|i'm|call me`, in alternation order;
matched case-insensitively (`re.IGNORECASE`). -/
def nameCues : List (List Char) :=
  [("my name is").data, ("i am").data, ("i").data ++ [apos] ++ ("m").data, ("call me").data]

/-- After a cue: `\s+([A-Z][a-z]+)\b` under `re.IGNORECASE`, i.e. at least
one whitespace, then at least two letters, then a word boundary. -/
def nameAfterCue (t : List Char) (q : Nat) : Option Nat :=
  let W := runLen isSpaceC t q
  if W = 0 then none
  else
    let L := runLen Char.isAlpha t (q + W)
    if 2 ≤ L && !(wordAt t (q + W + L)) then some (q + W + L) else none

/-- Name pattern `\b(?:my name is|i am|i'm|call me)\s+([A-Z][a-z]+)\b`,
case-insensitive; the produced value is the whole match (group 0). -/
def matchNameAt (t : List Char) (p : Nat) : Option Nat :=
  if boundaryAt t p then
    nameCues.findSome? fun cue =>
      if lowerS ((t.drop p).take cue.length) = cue then nameAfterCue t (p + cue.length)
      else none
  else none

/-- SSN pattern `\b\d{3}-\d{2}-\d{4}\b`. -/
def matchSsnAt (t : List Char) (p : Nat) : Option Nat :=
  if boundaryAt t p && digitsAt t p 3 && charAt t (p + 3) = some '-' && digitsAt t (p + 4) 2
      && charAt t (p + 6) = some '-' && digitsAt t (p + 7) 4 && boundaryAt t (p + 11) then
    some (p + 11)
  else none

/-- One backtracking branch of the credit-card pattern. -/
def ccTry (t : List Char) (p : Nat) (s1 s2 s3 : Bool) : Option Nat :=
  if digitsAt t p 4 then
    (sepAdv t (p + 4) s1 ccSepC).bind fun q1 =>
      if digitsAt t q1 4 then
        (sepAdv t (q1 + 4) s2 ccSepC).bind fun q2 =>
          if digitsAt t q2 4 then
            (sepAdv t (q2 + 4) s3 ccSepC).bind fun q3 =>
              if digitsAt t q3 4 && boundaryAt t (q3 + 4) then some (q3 + 4) else none
          else none
      else none
  else none

/-- Credit-card pattern `\b\d{4}[-\s]?\d{4}[-\s]?\d{4}[-\s]?\d{4}\b`;
the eight separator choices in greedy backtracking order. -/
def matchCcAt (t : List Char) (p : Nat) : Option Nat :=
  if boundaryAt t p then
    ([(true, true, true), (true, true, false), (true, false, true), (true, false, false),
      (false, true, true), (false, true, false), (false, false, true),
      (false, false, false)]).findSome? fun s => ccTry t p s.1 s.2.1 s.2.2
  else none

/-- Worker for `finditer`: scan from `p`, emit each match and continue at
its end (Python `re.finditer`; fuel bounds the number of steps). -/
def finditerAux (m : List Char → Nat → Option Nat) (t : List Char) : Nat → Nat → List (Nat × Nat)
  | _, 0 => []
  | p, fuel + 1 =>
    if p < t.length then
      match m t p with
      | some e => (p, e) :: finditerAux m t (if p < e then e else p + 1) fuel
      | none => finditerAux m t (p + 1) fuel
    else []

/-- `re.finditer(pattern, t)`: all non-overlapping matches, left to right. -/
def finditer (m : List Char → Nat → Option Nat) (t : List Char) : List (Nat × Nat) :=
  finditerAux m t 0 t.length

/-! ### Detection and dependency classification
(`PIIDependencyHandler._detect_pii_entities`, `._is_dependent_pii`). -/

/-- The five PII types of `pii_patterns`, in dict (insertion) order. -/
inductive PiiType
  | phone
  | email
  | name
  | ssn
  | credit_card
deriving DecidableEq

/-- One detected entity, as the dicts built by `_detect_pii_entities`
(`stop` embeds the Python key `end`). -/
structure Entity where
  value : List Char
  ptype : PiiType
  start : Nat
  stop : Nat
  is_dependent : Bool
deriving DecidableEq

/-- `PIIDependencyHandler.computation_keywords`. -/
def computationKeywords : List (List Char) :=
  (["add", "addition", "sum", "calculate", "multiply", "divide", "subtract",
    "total", "count", "average", "mean", "percentage", "compute", "math",
    "arithmetic", "operation", "result", "answer", "solve"]).map String.data

/-- `any(keyword in lower_text for keyword in self.computation_keywords)`. -/
def hasComputation (t : List Char) : Bool :=
  computationKeywords.any fun k => containsStr (lowerS t) k

/-- The `math_indicators` list of `_is_dependent_pii`. -/
def mathIndicators : List (List Char) :=
  (["add", "sum", "calculate", "total", "addition", "+", "plus"]).map String.data

/-- `PIIDependencyHandler._is_dependent_pii`. -/
def isDependentPii (t v : List Char) (ty : PiiType) : Bool :=
  if !hasComputation t then false
  else
    match ty with
    | PiiType.phone =>
      match findSub t v with
      | some idx =>
        let a := idx - 50
        let b := min t.length (idx + v.length + 50)
        let ctx := lowerS (sliceStr t a b)
        mathIndicators.any fun ind => containsStr ctx ind
      | none => false
    | _ => false

/-- All matches of one pattern, turned into entity records as the inner loop
of `_detect_pii_entities` builds them. -/
def entitiesOf (t : List Char) (ty : PiiType) (m : List Char → Nat → Option Nat) :
    List Entity :=
  (finditer m t).map fun pe =>
    let v := sliceStr t pe.1 pe.2
    { value := v, ptype := ty, start := pe.1, stop := pe.2,
      is_dependent := isDependentPii t v ty }

/-- `PIIDependencyHandler._detect_pii_entities`: the five patterns are run
in dict order and their matches appended in that order. -/
def detectPiiEntities (t : List Char) : List Entity :=
  entitiesOf t PiiType.phone matchPhoneAt ++ entitiesOf t PiiType.email matchEmailAt ++
    entitiesOf t PiiType.name matchNameAt ++ entitiesOf t PiiType.ssn matchSsnAt ++
    entitiesOf t PiiType.credit_card matchCcAt

/-! ### Masking (`_mask_non_dependent_pii`, `_get_mask_for_type`). -/

/-- `PIIDependencyHandler._get_mask_for_type` (the `[PII]` default is
unreachable for the five concrete types). -/
def maskForType : PiiType → List Char
  | PiiType.name => ("[NAME]").data
  | PiiType.phone => ("[PHONE]").data
  | PiiType.email => ("[EMAIL]").data
  | PiiType.ssn => ("[SSN]").data
  | PiiType.credit_card => ("[CREDIT_CARD]").data

/-- Insert into a start-descending list, after entries with a greater or
equal start: together with `stableSortDesc` this is Python's stable
`sorted(entities, key=lambda x: x['start'], reverse=True)`. -/
def insertDesc (en : Entity) : List Entity → List Entity
  | [] => [en]
  | x :: xs => if en.start < x.start then x :: insertDesc en xs else en :: x :: xs

/-- Python `sorted(..., key=start, reverse=True)` (stable). -/
def stableSortDesc : List Entity → List Entity
  | [] => []
  | a :: rest => insertDesc a (stableSortDesc rest)

/-- One masking step: `masked[:start] + mask + masked[end:]`. -/
def maskStep (acc : List Char) (en : Entity) : List Char :=
  acc.take en.start ++ maskForType en.ptype ++ acc.drop en.stop

/-- `PIIDependencyHandler._mask_non_dependent_pii`. -/
def maskNonDependentPii (t : List Char) (es : List Entity) : List Char :=
  (stableSortDesc es).foldl maskStep t

/-! ### Response generation (`_generate_standard_response` and friends).

The HTTP call to the external text-generation service is modelled by an
`ApiOutcome` argument: a 200 response whose payload does or does not contain
an extractable candidate text, a non-2xx status, or a transport error
(timeout / network failure, which `except` catches). -/

/-- Outcome of the `requests.post` call to the external service. -/
inductive ApiOutcome
  | success (payload : Option (List Char))
  | httpError (code : Nat)
  | networkError
deriving DecidableEq

/-- Outcomes on which the code cannot extract a generated text. -/
def isFailureOutcome : ApiOutcome → Bool
  | ApiOutcome.success (some _) => false
  | _ => true

/-- The final fallback string of `_generate_standard_response`. -/
def fallbackMessage : List Char :=
  ("I understand your message. How can I help you further while ensuring your privacy is protected?").data

/-- Extract the candidate text on HTTP success; every failure shape falls
through to the fallback string, as the `try/except` does. -/
def apiOrFallback : ApiOutcome → List Char
  | ApiOutcome.success (some s) => s
  | _ => fallbackMessage

/-- `PIIDependencyHandler._generate_standard_response`. -/
def generateStandardResponse (t : List Char) (o : ApiOutcome) : List Char :=
  let q := lowerS t
  if (["add", "sum", "calculate"]).map String.data |>.any (fun w => containsStr q w) then
    let numbers := digitRuns t
    if 2 ≤ numbers.length then
      ("The sum of ").data ++ joinPlus numbers ++ (" is: ").data ++
        natStr ((numbers.map natOfDigits).sum)
    else apiOrFallback o
  else apiOrFallback o

/-- The f-string of `_generate_dependent_response`. -/
def depResponseText (v : List Char) (s : Nat) : List Char :=
  ("I").data ++ [apos] ++
    ("ve kept your phone number for the calculation. The sum of all digits in ").data ++
    v ++ (" is: ").data ++ natStr s

/-- `PIIDependencyHandler._generate_dependent_response`. -/
def generateDependentResponse (original masked : List Char) (deps : List Entity)
    (o : ApiOutcome) : List Char :=
  let phones := deps.filter fun e => decide (e.ptype = PiiType.phone)
  match phones with
  | ph :: _ =>
    if (["add", "sum", "calculate"]).map String.data
        |>.any (fun w => containsStr (lowerS original) w) then
      depResponseText ph.value (digitSum ph.value)
    else generateStandardResponse original o
  | [] => generateStandardResponse original o

/-- The f-string of `_generate_mixed_dependency_response`. -/
def mixedResponseText (v : List Char) (s : Nat) : List Char :=
  ("I").data ++ [apos] ++
    ("ve protected your personal information while keeping the phone number for calculation. The sum of all digits in ").data ++
    v ++ (" is: ").data ++ natStr s

/-- `PIIDependencyHandler._generate_mixed_dependency_response`. -/
def generateMixedResponse (original masked : List Char) (deps : List Entity)
    (o : ApiOutcome) : List Char :=
  if deps.any (fun e => decide (e.ptype = PiiType.phone)) then
    let phoneNumbers := (deps.filter fun e => decide (e.ptype = PiiType.phone)).map Entity.value
    match phoneNumbers with
    | v :: _ =>
      if (["add", "sum", "calculate"]).map String.data
          |>.any (fun w => containsStr (lowerS original) w) then
        mixedResponseText v ((phoneNumbers.map digitSum).sum)
      else generateStandardResponse masked o
    | [] => generateStandardResponse masked o
  else generateStandardResponse masked o

/-- `PIIDependencyHandler._generate_non_dependent_response`. -/
def generateNonDependentResponse (masked : List Char) (o : ApiOutcome) : List Char :=
  generateStandardResponse masked o

/-! ### The backend-analysis pipeline (`_process_with_backend_analysis`)
and the request validation of `app.handle_messages`. -/

/-- The result dict of `_process_with_backend_analysis`. -/
structure ProcResult where
  original_query : List Char
  masked_query : List Char
  detected_entities : List Entity
  dependent_entities : List Entity
  non_dependent_entities : List Entity
  context : List Char
  privacy_preserved : Bool
  computation_preserved : Bool
  llm_response : List Char
  final_response : List Char
  privacy_score : Rat
deriving DecidableEq

/-- `PIIDependencyHandler._process_with_backend_analysis`. -/
def processWithBackendAnalysis (q : List Char) (o : ApiOutcome) : ProcResult :=
  let entities := detectPiiEntities q
  let deps := entities.filter Entity.is_dependent
  let nondeps := entities.filter fun e => !e.is_dependent
  let masked := maskNonDependentPii q nondeps
  let context : List Char :=
    if !deps.isEmpty && !nondeps.isEmpty then ("mixed_dependency").data
    else if !deps.isEmpty then ("dependent_only").data
    else if !nondeps.isEmpty then ("non_dependent_only").data
    else ("no_pii").data
  let response : List Char :=
    if !deps.isEmpty && !nondeps.isEmpty then generateMixedResponse q masked deps o
    else if !deps.isEmpty then generateDependentResponse q masked deps o
    else if !nondeps.isEmpty then generateNonDependentResponse masked o
    else generateStandardResponse q o
  { original_query := q, masked_query := masked, detected_entities := entities,
    dependent_entities := deps, non_dependent_entities := nondeps, context := context,
    privacy_preserved := !nondeps.isEmpty, computation_preserved := !deps.isEmpty,
    llm_response := response, final_response := response,
    privacy_score :=
      if entities.isEmpty then 1 else (nondeps.length : Rat) / (entities.length : Rat) }

/-- The input validation of `app.handle_messages` (POST): the request body
is `none` when absent or an empty/false-y JSON object, `some none` when the
`text` field is missing, `some (some t)` when a text string `t` was sent.
The handler rejects only the first two shapes with the 400 error
`'Text is required'`; any string, including the empty string, passes. -/
def validateRequest : Option (Option (List Char)) → Except (List Char) (List Char)
  | none => Except.error (("Text is required").data)
  | some none => Except.error (("Text is required").data)
  | some (some t) => Except.ok t

/-! ### `FakerMasking` (`faker_masking.py`): substitution with synthetic
values.  The Faker draws are modelled as an explicit list `fakes`,
consumed one value per detected match. -/

/-- Result of `FakerMasking.mask_text`. -/
structure FakerOut where
  masked : List Char
  replacements : List (List Char × List Char)
  detected : List PiiType
deriving DecidableEq

/-- The per-match loop body of `mask_text`: record `replacements[fake] =
value` and replace the first occurrence of the value in the running masked
text. -/
def maskLoop : List (List Char) → List (List Char) → List Char →
    List (List Char × List Char) → List Char × List (List Char × List Char)
  | [], _, masked, prs => (masked, prs)
  | v :: vs, fakes, masked, prs =>
    maskLoop vs fakes.tail (replaceFirst v (fakes.headD []) masked)
      (dictInsert prs (fakes.headD []) v)

/-- `FakerMasking.mask_text`: scan for phone matches, then email matches,
both over the original text, substituting synthetic values in order. -/
def maskText (t : List Char) (fakes : List (List Char)) : FakerOut :=
  let phoneVals := (finditer matchPhoneFMAt t).map fun pe => sliceStr t pe.1 pe.2
  let emailVals := (finditer matchEmailAt t).map fun pe => sliceStr t pe.1 pe.2
  let step1 := maskLoop phoneVals fakes t []
  let step2 := maskLoop emailVals (fakes.drop phoneVals.length) step1.1 step1.2
  { masked := step2.1, replacements := step2.2,
    detected := List.replicate phoneVals.length PiiType.phone ++
      List.replicate emailVals.length PiiType.email }

/-- `FakerMasking.unmask_text`: for each `(fake, original)` pair in dict
(insertion) order, replace all occurrences of the fake by the original. -/
def unmaskText (t : List Char) (prs : List (List Char × List Char)) : List Char :=
  prs.foldl (fun acc fv => replaceAll fv.1 fv.2 acc) t

/-! ### Derived notions used by the statements below. -/

/-- Two entity spans do not overlap. -/
def entDisjoint (a b : Entity) : Prop := a.stop ≤ b.start ∨ b.stop ≤ a.start

instance (a b : Entity) : Decidable (entDisjoint a b) :=
  inferInstanceAs (Decidable (_ ∨ _))

/-- Shift an entity's span left by `k` (used to re-express spans relative
to a suffix of the text). -/
def shiftEnt (k : Nat) (en : Entity) : Entity :=
  { en with start := en.start - k, stop := en.stop - k }

/-- Normal form of the masked text for a start-ascending list of disjoint
entities: the text's segments interleaved with the masks. -/
def spliceMasks : List Char → List Entity → List Char
  | t, [] => t
  | t, a :: l =>
    t.take a.start ++ maskForType a.ptype ++ spliceMasks (t.drop a.stop) (l.map (shiftEnt a.stop))
termination_by t l => l.length
decreasing_by simpa using Nat.lt_succ_self l.length

/-- `Restorable prs M t`: unmasking the pairs `prs` one after the other,
each fake occurring exactly once in the text at its turn, rewrites `M` back
into `t`. -/
def Restorable : List (List Char × List Char) → List Char → List Char → Prop
  | [], M, t => M = t
  | (f, v) :: rest, M, t =>
    f ≠ [] ∧ ∃ n, occursAt f M n ∧ (∀ p ≤ M.length, occursAt f M p → p = n) ∧
      Restorable rest (M.take n ++ v ++ M.drop (n + f.length)) t

/-! ### Concrete inputs for the individual claims. -/

/-- C1: the phone value also occurs embedded in `x1234567890`, where no
word boundary lets the pattern match. -/
def c1CxText : List Char := ("x1234567890 or 1234567890").data

/-- C1 witness input: a lone phone number occurring nowhere else. -/
def c1WitText : List Char := ("Call 1234567890 now").data

/-- C2 counterexample input: the detected phone value also occurs (shifted
by one) inside the first digit run. -/
def c2CxText : List Char := ("11234567890 1234567890").data

/-- C2 counterexample synthetic draw: all ones, so that the substituted
text carries a second, earlier occurrence of the fake. -/
def c2CxFakes : List (List Char) := [("1111111111").data]

/-- C2 witness input. -/
def c2WitText : List Char := ("Call 1234567890 now").data

/-- C2 witness synthetic draw. -/
def c2WitFakes : List (List Char) := [("0101010101").data]

/-- C3: the example input of the specification. -/
def c3Query : List Char := ("My phone number is 9876543210, please add its digits").data

/-- C4: an email left of a phone number; the phone pattern runs first. -/
def c4CxText : List Char := ("a@b.co 1234567890").data

/-- C8 counterexample input: two phone numbers. -/
def c8CxText : List Char := ("1111111111 2222222222").data

/-- C8 counterexample draws: the same synthetic value twice (a generator
collision). -/
def c8CxFakes : List (List Char) := [("9999999999").data, ("9999999999").data]

/-- C9 witness response text. -/
def c9WitR : List Char := ("99").data

/-- C9 witness substitution map. -/
def c9WitM : List (List Char × List Char) := [(("12").data, ("34").data)]

/-- C9 counterexample substitution map: the original value `121` contains
the synthetic key `12`, so a second pass substitutes again. -/
def c9CxM : List (List Char × List Char) := [(("12").data, ("121").data)]

/-! ### Shared lemmas about occurrences and replacement. -/

theorem occursAt_le_len {pat : List Char} (hne : pat ≠ []) {t : List Char} {p : Nat}
    (hp : occursAt pat t p) : p ≤ t.length := by
  by_contra hgt
  push_neg at hgt
  have hnil : t.drop p = [] := List.drop_eq_nil_of_le (Nat.le_of_lt hgt)
  rw [occursAt, hnil] at hp
  exact hne (List.prefix_nil.mp hp)

theorem occursAt_succ_cons {pat : List Char} {c : Char} {t : List Char} {p : Nat} :
    occursAt pat (c :: t) (p + 1) ↔ occursAt pat t p := by
  rw [occursAt, occursAt, List.drop_succ_cons]

theorem occursAt_drop {pat t : List Char} {k q : Nat} :
    occursAt pat (t.drop k) q ↔ occursAt pat t (k + q) := by
  rw [occursAt, occursAt, List.drop_drop, Nat.add_comm]

theorem occursAt_zero {pat t : List Char} : occursAt pat t 0 ↔ pat <+: t := by
  rw [occursAt, List.drop_zero]

theorem replaceAllAux_no_occ {pat rep : List Char} :
    ∀ (fuel : Nat) (t : List Char), (∀ p, ¬ occursAt pat t p) →
      replaceAllAux pat rep fuel t = t := by
  intro fuel
  induction fuel with
  | zero => intro t _; rfl
  | succ f ih =>
    intro t h
    cases t with
    | nil => rfl
    | cons c t' =>
      have hpre : pat.isPrefixOf (c :: t') = false := by
        cases hpp : pat.isPrefixOf (c :: t') with
        | false => rfl
        | true =>
          exact absurd (occursAt_zero.mpr (List.isPrefixOf_iff_prefix.mp hpp)) (h 0)
      simp only [replaceAllAux, hpre, Bool.and_false, Bool.false_eq_true, if_false]
      have : replaceAllAux pat rep f t' = t' :=
        ih t' fun p hp => h (p + 1) (occursAt_succ_cons.mpr hp)
      rw [this]

theorem replaceAll_no_occ {pat rep t : List Char} (h : ∀ p, ¬ occursAt pat t p) :
    replaceAll pat rep t = t :=
  replaceAllAux_no_occ t.length t h

theorem replaceAllAux_unique {pat rep : List Char} (hne : pat ≠ []) :
    ∀ (fuel : Nat) (t : List Char) (n : Nat), t.length ≤ fuel →
      occursAt pat t n → (∀ p, occursAt pat t p → p = n) →
      replaceAllAux pat rep fuel t = t.take n ++ rep ++ t.drop (n + pat.length) := by
  intro fuel
  induction fuel with
  | zero =>
    intro t n hlen hocc _
    rw [List.length_eq_zero.mp (Nat.le_zero.mp hlen)] at hocc
    exact absurd (List.prefix_nil.mp (by simpa [occursAt] using hocc)) hne
  | succ f ih =>
    intro t n hlen hocc huniq
    cases t with
    | nil =>
      exact absurd (List.prefix_nil.mp (by simpa [occursAt] using hocc)) hne
    | cons c t' =>
      cases n with
      | zero =>
        have hpre : pat.isPrefixOf (c :: t') = true :=
          List.isPrefixOf_iff_prefix.mpr (occursAt_zero.mp hocc)
        have hie : pat.isEmpty = false := by
          cases pat with
          | nil => exact absurd rfl hne
          | cons a l => rfl
        simp only [replaceAllAux, hpre, hie, Bool.not_false, Bool.true_and, if_true]
        have hno : ∀ p, ¬ occursAt pat ((c :: t').drop pat.length) p := by
          intro p hp
          have := huniq (pat.length + p) (occursAt_drop.mp hp)
          have hpl : pat.length = 0 := by omega
          exact hne (List.length_eq_zero.mp hpl)
        rw [replaceAllAux_no_occ f _ hno]
        simp
      | succ m =>
        have hnpre : pat.isPrefixOf (c :: t') = false := by
          cases hpp : pat.isPrefixOf (c :: t') with
          | false => rfl
          | true =>
            have := huniq 0 (occursAt_zero.mpr (List.isPrefixOf_iff_prefix.mp hpp))
            omega
        simp only [replaceAllAux, hnpre, Bool.and_false, Bool.false_eq_true, if_false]
        have hrec : replaceAllAux pat rep f t' = t'.take m ++ rep ++ t'.drop (m + pat.length) := by
          refine ih t' m (by simpa using Nat.lt_succ_iff.mp (Nat.lt_of_lt_of_le (by simp) hlen)) ?_ ?_
          · exact occursAt_succ_cons.mp hocc
          · intro p hp
            have := huniq (p + 1) (occursAt_succ_cons.mpr hp)
            omega
        rw [hrec]
        simp [List.take_succ_cons, List.drop_succ_cons, Nat.succ_add]

/-! ### C10, C7: response plumbing of the backend path. -/

/-- C10: for every query processed through the backend-analysis path, the
returned final response is character-for-character the same string as the
returned llm response; no reconstruction step is applied in this path. -/
theorem c10_final_response_eq_llm (q : List Char) (o : ApiOutcome) :
    (processWithBackendAnalysis q o).final_response =
      (processWithBackendAnalysis q o).llm_response := rfl

/-- C7: every failing outcome of the external text-generation call
(non-2xx status, malformed payload, network error/timeout) is recovered
locally: the process result is the same as for any other failure and is a
complete record, so no failure is surfaced to the caller. -/
theorem c7_failure_recovered (q : List Char) (o : ApiOutcome)
    (h : isFailureOutcome o = true) :
    processWithBackendAnalysis q o = processWithBackendAnalysis q ApiOutcome.networkError := by
  cases o with
  | success p =>
    cases p with
    | none => rfl
    | some s => exact absurd h (by simp [isFailureOutcome])
  | httpError c => rfl
  | networkError => rfl

/-- Witness for C7 at a concrete failing outcome. -/
theorem c7_failure_recovered_witness :
    processWithBackendAnalysis (("hello").data) (ApiOutcome.httpError 500) =
      processWithBackendAnalysis (("hello").data) ApiOutcome.networkError :=
  c7_failure_recovered (("hello").data) (ApiOutcome.httpError 500) rfl

/-! ### C5: the dependency classifier. -/

/-- C5: an entity is classified dependent only if the text contains a
computation cue word, and entities of type name, email, ssn or credit card
are never classified dependent. -/
theorem c5_classification (t v : List Char) (ty : PiiType) :
    (isDependentPii t v ty = true → hasComputation t = true) ∧
    ((ty = PiiType.name ∨ ty = PiiType.email ∨ ty = PiiType.ssn ∨ ty = PiiType.credit_card) →
      isDependentPii t v ty = false) := by
  constructor
  · intro h
    cases hc : hasComputation t with
    | true => rfl
    | false => exact absurd h (by simp [isDependentPii, hc])
  · rintro (rfl | rfl | rfl | rfl) <;>
      cases hc : hasComputation t <;> simp [isDependentPii, hc]

/-- Witness for C5: a phone entity classified dependent on a text that does
contain a cue word, and a name entity on the same text is non-dependent. -/
theorem c5_classification_witness :
    hasComputation (("add 1234567890").data) = true ∧
    isDependentPii (("add 1234567890").data) (("x").data) PiiType.name = false :=
  ⟨(c5_classification (("add 1234567890").data) (("1234567890").data) PiiType.phone).1
      (by decide),
    (c5_classification (("add 1234567890").data) (("x").data) PiiType.name).2 (Or.inl rfl)⟩

/-! ### C6: validation of the query. -/

/-- C6 counterexample: an empty query string is not rejected — request
validation accepts it and hands it to the pipeline. -/
theorem c6_cx : validateRequest (some (some [])) = Except.ok [] := rfl

/-- C6 (amended): a request with a missing body or missing `text` field is
rejected with the 400 error `Text is required`; an empty text string is
accepted and processed, and detection on the empty string returns no
entities. -/
theorem c6_amended :
    validateRequest none = Except.error (("Text is required").data) ∧
    validateRequest (some none) = Except.error (("Text is required").data) ∧
    validateRequest (some (some [])) = Except.ok [] ∧
    detectPiiEntities [] = [] ∧
    (processWithBackendAnalysis [] ApiOutcome.networkError).detected_entities = [] :=
  ⟨rfl, rfl, rfl, rfl, rfl⟩

/-! ### C3: the digit-sum example. -/

/-- C3 counterexample: on the example input the dependent-PII responder does
not report 46; its output contains no substring `46` at all. -/
theorem c3_cx :
    (processWithBackendAnalysis c3Query ApiOutcome.networkError).llm_response ≠
      depResponseText (("9876543210").data) 46 ∧
    containsStr ((processWithBackendAnalysis c3Query ApiOutcome.networkError).llm_response)
      (("46").data) = false := by
  exact ⟨by decide, by decide⟩

/-- C3 (amended): on the input `My phone number is 9876543210, please add
its digits` a phone entity is detected and classified dependent, the phone
number is left verbatim in the sanitized text, and the fallback responder
reports the sum of all digits of 9876543210 as 45. -/
theorem c3_amended :
    (processWithBackendAnalysis c3Query ApiOutcome.networkError).detected_entities =
      [{ value := ("9876543210").data, ptype := PiiType.phone, start := 19, stop := 29,
         is_dependent := true }] ∧
    (processWithBackendAnalysis c3Query ApiOutcome.networkError).masked_query = c3Query ∧
    (processWithBackendAnalysis c3Query ApiOutcome.networkError).context =
      ("dependent_only").data ∧
    (processWithBackendAnalysis c3Query ApiOutcome.networkError).llm_response =
      depResponseText (("9876543210").data) 45 := by
  exact ⟨by decide, by decide, by decide, by decide⟩

/-! ### C2: the mask/unmask round trip. -/

theorem replaceAll_unique {pat rep t : List Char} {n : Nat} (hne : pat ≠ [])
    (hocc : occursAt pat t n) (huniq : ∀ p, occursAt pat t p → p = n) :
    replaceAll pat rep t = t.take n ++ rep ++ t.drop (n + pat.length) :=
  replaceAllAux_unique hne t.length t n (Nat.le_refl _) hocc huniq

theorem restorable_unmask :
    ∀ (prs : List (List Char × List Char)) (M t : List Char),
      Restorable prs M t → unmaskText M prs = t := by
  intro prs
  induction prs with
  | nil => intro M t h; exact h
  | cons fv rest ih =>
    intro M t h
    obtain ⟨f, v⟩ := fv
    obtain ⟨hne, n, hocc, huniq, hrest⟩ := h
    have huniq' : ∀ p, occursAt f M p → p = n := fun p hp =>
      huniq p (occursAt_le_len hne hp) hp
    show unmaskText (replaceAll f v M) rest = t
    rw [replaceAll_unique hne hocc huniq']
    exact ih _ _ hrest

/-- C2 counterexample: masking `11234567890 1234567890` with the synthetic
draw `1111111111` and immediately unmasking does not reproduce the original
text (the substituted fake also occurs one position earlier). -/
theorem c2_cx :
    unmaskText (maskText c2CxText c2CxFakes).masked (maskText c2CxText c2CxFakes).replacements ≠
      c2CxText := by decide

/-- C2 (amended): masking then immediately unmasking reproduces the original
text provided that, at each unmasking step in turn, the synthetic value
occurs exactly once in the partially restored text, at the place where the
substitution put it (no collisions with surrounding text or other values). -/
theorem c2_roundtrip (t : List Char) (fakes : List (List Char))
    (h : Restorable (maskText t fakes).replacements (maskText t fakes).masked t) :
    unmaskText (maskText t fakes).masked (maskText t fakes).replacements = t :=
  restorable_unmask _ _ _ h

/-- Witness for C2 on a one-phone text with a fresh synthetic value. -/
theorem c2_roundtrip_witness :
    unmaskText (maskText c2WitText c2WitFakes).masked (maskText c2WitText c2WitFakes).replacements =
      c2WitText :=
  c2_roundtrip c2WitText c2WitFakes
    (by refine ⟨by decide, 5, by decide, by decide, ?_⟩
        show _ = c2WitText
        decide)

/-! ### C9: idempotence of reconstruction. -/

theorem unmask_no_occ :
    ∀ (m : List (List Char × List Char)) (u : List Char),
      (∀ fv ∈ m, ∀ p ≤ u.length, ¬ occursAt fv.1 u p) → unmaskText u m = u := by
  intro m
  induction m with
  | nil => intro u _; rfl
  | cons fv rest ih =>
    intro u h
    obtain ⟨f, v⟩ := fv
    have hf : ∀ p, ¬ occursAt f u p := by
      intro p hp
      by_cases hfe : f = []
      · subst hfe
        exact h ([], v) (List.mem_cons_self _ _) 0 (Nat.zero_le _)
          (occursAt_zero.mpr List.nil_prefix)
      · exact h (f, v) (List.mem_cons_self _ _) p (occursAt_le_len hfe hp) hp
    show unmaskText (replaceAll f v u) rest = u
    rw [replaceAll_no_occ hf]
    exact ih u fun fv' hm => h fv' (List.mem_cons_of_mem _ hm)

/-- C9 counterexample: with the substitution map `{12 ↦ 121}` a second
reconstruction pass substitutes again, so reconstruct∘reconstruct differs
from one reconstruct. -/
theorem c9_cx :
    unmaskText (unmaskText (("12").data) c9CxM) c9CxM ≠ unmaskText (("12").data) c9CxM := by
  decide

/-- C9 (amended): applying reconstruction twice with the same map equals
applying it once, provided no synthetic key still occurs in the result of
the first pass (which is the situation the specification describes: the
first pass removes the synthetic values). -/
theorem c9_idempotent (r : List Char) (m : List (List Char × List Char))
    (h : ∀ fv ∈ m, ∀ p ≤ (unmaskText r m).length, ¬ occursAt fv.1 (unmaskText r m) p) :
    unmaskText (unmaskText r m) m = unmaskText r m :=
  unmask_no_occ m (unmaskText r m) h

/-- Witness for C9 on a response free of the synthetic key. -/
theorem c9_idempotent_witness :
    unmaskText (unmaskText c9WitR c9WitM) c9WitM = unmaskText c9WitR c9WitM :=
  c9_idempotent c9WitR c9WitM (by decide)

/-! ### C8: uniqueness of the substitution-map keys. -/

theorem dictInsert_keys_sub {l : List (List Char × List Char)} {k v x : List Char}
    (hx : x ∈ (dictInsert l k v).map Prod.fst) : x ∈ l.map Prod.fst ∨ x = k := by
  induction l with
  | nil => exact Or.inr (List.mem_singleton.mp hx)
  | cons p rest ih =>
    obtain ⟨k', v'⟩ := p
    have hd : dictInsert ((k', v') :: rest) k v =
        if k' = k then (k', v) :: rest else (k', v') :: dictInsert rest k v := rfl
    by_cases hk : k' = k
    · rw [hd, if_pos hk, List.map_cons] at hx
      rcases List.mem_cons.mp hx with h | h
      · exact Or.inr (h.trans hk)
      · exact Or.inl (by rw [List.map_cons]; exact List.mem_cons.mpr (Or.inr h))
    · rw [hd, if_neg hk, List.map_cons] at hx
      rcases List.mem_cons.mp hx with h | h
      · exact Or.inl (by rw [List.map_cons]; exact List.mem_cons.mpr (Or.inl h))
      · rcases ih h with h2 | h2
        · exact Or.inl (by rw [List.map_cons]; exact List.mem_cons.mpr (Or.inr h2))
        · exact Or.inr h2

theorem dictInsert_keys_nodup {l : List (List Char × List Char)} {k v : List Char}
    (h : (l.map Prod.fst).Nodup) : ((dictInsert l k v).map Prod.fst).Nodup := by
  induction l with
  | nil => simp [dictInsert]
  | cons p rest ih =>
    obtain ⟨k', v'⟩ := p
    have hd : dictInsert ((k', v') :: rest) k v =
        if k' = k then (k', v) :: rest else (k', v') :: dictInsert rest k v := rfl
    rw [List.map_cons, List.nodup_cons] at h
    by_cases hk : k' = k
    · rw [hd, if_pos hk, List.map_cons, List.nodup_cons]
      exact h
    · rw [hd, if_neg hk, List.map_cons, List.nodup_cons]
      refine ⟨fun hmem => ?_, ih h.2⟩
      rcases dictInsert_keys_sub hmem with hm | hm
      · exact h.1 hm
      · exact hk hm

theorem maskLoop_keys_nodup :
    ∀ (vs fakes : List (List Char)) (masked : List Char)
      (prs : List (List Char × List Char)), (prs.map Prod.fst).Nodup →
      ((maskLoop vs fakes masked prs).2.map Prod.fst).Nodup := by
  intro vs
  induction vs with
  | nil => intro _ _ _ h; exact h
  | cons v vs' ih =>
    intro fakes masked prs h
    exact ih _ _ _ (dictInsert_keys_nodup h)

/-- C8 counterexample: on two phone numbers with a colliding synthetic draw
the substitution map ends with a single entry — one key for two masked
entities, the colliding insert silently overwrote the first mapping and no
re-generation took place. -/
theorem c8_cx :
    (maskText c8CxText c8CxFakes).replacements =
      [(("9999999999").data, ("2222222222").data)] ∧
    (maskText c8CxText c8CxFakes).detected.length = 2 := by
  exact ⟨by decide, by decide⟩

/-- C8 (amended): the keys of the substitution map are pairwise distinct
(Python dict semantics), but a colliding synthetic value overwrites the
previous entry instead of being re-generated, so the map may hold fewer
entries than there are masked entities. -/
theorem c8_keys_nodup (t : List Char) (fakes : List (List Char)) :
    ((maskText t fakes).replacements.map Prod.fst).Nodup :=
  maskLoop_keys_nodup _ _ _ _ (maskLoop_keys_nodup _ _ _ _ (by simp))

/-! ### C4: ordering of detected entities. -/

theorem finditerAux_ge (m : List Char → Nat → Option Nat) (t : List Char) :
    ∀ (fuel p : Nat), ∀ x ∈ finditerAux m t p fuel, p ≤ x.1 := by
  intro fuel
  induction fuel with
  | zero => intro p x hx; simp [finditerAux] at hx
  | succ f ih =>
    intro p x hx
    by_cases hp : p < t.length
    · cases hm : m t p with
      | some e =>
        simp only [finditerAux, if_pos hp, hm] at hx
        rcases List.mem_cons.mp hx with rfl | hx2
        · exact Nat.le_refl p
        · refine Nat.le_trans ?_ (ih _ x hx2)
          split <;> omega
      | none =>
        simp only [finditerAux, if_pos hp, hm] at hx
        exact Nat.le_trans (Nat.le_succ p) (ih _ x hx)
    · simp [finditerAux, hp] at hx

theorem finditerAux_chain (m : List Char → Nat → Option Nat) (t : List Char) :
    ∀ (fuel p : Nat),
      List.Chain' (fun a b : Nat × Nat => a.1 < b.1) (finditerAux m t p fuel) := by
  intro fuel
  induction fuel with
  | zero => intro p; simp [finditerAux]
  | succ f ih =>
    intro p
    by_cases hp : p < t.length
    · cases hm : m t p with
      | some e =>
        simp only [finditerAux, if_pos hp, hm]
        rw [List.chain'_cons']
        refine ⟨fun b hb => ?_, ih _⟩
        have hble := finditerAux_ge m t f _ b (List.mem_of_mem_head? hb)
        have : p < if p < e then e else p + 1 := by split <;> omega
        exact Nat.lt_of_lt_of_le this hble
      | none =>
        simp only [finditerAux, if_pos hp, hm]
        exact ih (p + 1)
    · simp [finditerAux, hp]

theorem entitiesOf_chain (t : List Char) (ty : PiiType) (m : List Char → Nat → Option Nat) :
    List.Chain' (fun a b : Entity => a.start < b.start) (entitiesOf t ty m) := by
  unfold entitiesOf finditer
  rw [List.chain'_map]
  exact finditerAux_chain m t t.length 0

/-- C4 counterexample: with an email left of a phone number the returned
sequence has starts `[7, 0]` — not ascending across entity types. -/
theorem c4_cx :
    (detectPiiEntities c4CxText).map Entity.start = [7, 0] ∧
    ¬ List.Chain' (fun a b : Nat => a ≤ b) ((detectPiiEntities c4CxText).map Entity.start) := by
  have h : (detectPiiEntities c4CxText).map Entity.start = [7, 0] := by decide
  refine ⟨h, ?_⟩
  rw [h]
  intro hc
  exact absurd (List.chain'_cons.mp hc).1 (by omega)

/-- C4 (amended): detection returns the per-type match groups concatenated
in the fixed pattern order phone, email, name, ssn, credit card; within
each group the start positions are strictly ascending, but the concatenated
sequence is not globally ordered by start. -/
theorem c4_grouped_ascending (t : List Char) :
    detectPiiEntities t =
      entitiesOf t PiiType.phone matchPhoneAt ++ entitiesOf t PiiType.email matchEmailAt ++
        entitiesOf t PiiType.name matchNameAt ++ entitiesOf t PiiType.ssn matchSsnAt ++
        entitiesOf t PiiType.credit_card matchCcAt ∧
    ∀ (ty : PiiType) (m : List Char → Nat → Option Nat),
      List.Chain' (fun a b : Entity => a.start < b.start) (entitiesOf t ty m) :=
  ⟨rfl, fun ty m => entitiesOf_chain t ty m⟩

/-! ### C1: masking and occurrences of entity values. -/

theorem pref_of_pref_append {v A B : List Char} (h : v <+: A ++ B)
    (hl : v.length ≤ A.length) : v <+: A := by
  rw [List.prefix_iff_eq_take] at h ⊢
  rwa [List.take_append_eq_append_take, Nat.sub_eq_zero_of_le hl, List.take_zero,
    List.append_nil] at h

theorem occursAt_append_left {v X Y : List Char} {p : Nat} (hp : occursAt v (X ++ Y) p)
    (hle : p + v.length ≤ X.length) : occursAt v X p := by
  rw [occursAt, List.drop_append_eq_append_drop] at hp
  exact pref_of_pref_append hp (by rw [List.length_drop]; omega)

theorem occursAt_append_right {v X Y : List Char} {p : Nat} (hp : occursAt v (X ++ Y) p)
    (hle : X.length ≤ p) : occursAt v Y (p - X.length) := by
  rw [occursAt, List.drop_append_eq_append_drop, List.drop_eq_nil_of_le hle,
    List.nil_append] at hp
  exact hp

theorem occursAt_take {v t : List Char} {n p : Nat} (hp : occursAt v (t.take n) p) :
    occursAt v t p := by
  rw [occursAt, List.drop_take] at hp
  exact hp.trans (List.take_prefix _ _)

theorem occursAt_getElem {v S : List Char} {p : Nat} (hp : occursAt v S p)
    {i : Nat} (hi : i < v.length) : S[p + i]? = v[i]? := by
  rw [occursAt, List.prefix_iff_eq_take] at hp
  conv_rhs => rw [hp]
  rw [List.getElem?_take, if_pos hi, List.getElem?_drop]

theorem occursAt_bound {v S : List Char} {p : Nat} (hvne : v ≠ [])
    (hp : occursAt v S p) : p + v.length ≤ S.length := by
  have h1 := occursAt_le_len hvne hp
  have h2 : v.length ≤ (S.drop p).length := hp.length_le
  rw [List.length_drop] at h2
  omega

theorem infix_of_pref_drop {v m : List Char} {x : Nat} (h : v <+: m.drop x) :
    v <:+: m := by
  obtain ⟨r, hr⟩ := h
  exact ⟨m.take x, r, by rw [List.append_assoc, hr, List.take_append_drop]⟩

theorem containsStr_iff {t v : List Char} :
    containsStr t v = true ↔ ∃ p, occursAt v t p := by
  rw [containsStr, List.any_eq_true]
  constructor
  · rintro ⟨p, -, hpre⟩
    exact ⟨p, List.isPrefixOf_iff_prefix.mp hpre⟩
  · rintro ⟨p, hp⟩
    by_cases hvne : v = []
    · subst hvne
      exact ⟨0, by simp, List.isPrefixOf_iff_prefix.mpr List.nil_prefix⟩
    · refine ⟨p, ?_, List.isPrefixOf_iff_prefix.mpr hp⟩
      have := occursAt_le_len hvne hp
      simp only [List.mem_range]
      omega

theorem maskFor_ne_nil (ty : PiiType) : maskForType ty ≠ [] := by
  cases ty <;> simp [maskForType]

theorem maskFor_head (ty : PiiType) : (maskForType ty)[0]? = some '[' := by
  cases ty <;> rfl

theorem maskFor_last (ty : PiiType) :
    (maskForType ty)[(maskForType ty).length - 1]? = some ']' := by
  cases ty <;> rfl

theorem insertDesc_perm (en : Entity) :
    ∀ l : List Entity, (insertDesc en l).Perm (en :: l) := by
  intro l
  induction l with
  | nil => exact List.Perm.refl _
  | cons x xs ih =>
    rw [insertDesc]
    split
    · exact (ih.cons x).trans (List.Perm.swap en x xs)
    · exact List.Perm.refl _

theorem stableSortDesc_perm : ∀ l : List Entity, (stableSortDesc l).Perm l := by
  intro l
  induction l with
  | nil => exact List.Perm.refl _
  | cons a rest ih => exact (insertDesc_perm a (stableSortDesc rest)).trans (ih.cons a)

theorem insertDesc_sorted {en : Entity} :
    ∀ {l : List Entity}, List.Pairwise (fun a b => b.start ≤ a.start) l →
      List.Pairwise (fun a b => b.start ≤ a.start) (insertDesc en l) := by
  intro l
  induction l with
  | nil => intro _; simp [insertDesc]
  | cons x xs ih =>
    intro h
    rw [List.pairwise_cons] at h
    rw [insertDesc]
    split
    · rename_i hlt
      rw [List.pairwise_cons]
      refine ⟨fun y hy => ?_, ih h.2⟩
      rcases List.mem_cons.mp (((insertDesc_perm en xs).mem_iff).mp hy) with rfl | hy2
      · exact Nat.le_of_lt hlt
      · exact h.1 y hy2
    · rename_i hge
      rw [List.pairwise_cons]
      refine ⟨fun y hy => ?_, List.pairwise_cons.mpr h⟩
      rcases List.mem_cons.mp hy with rfl | hy'
      · omega
      · exact Nat.le_trans (h.1 y hy') (by omega)

theorem stableSortDesc_sorted :
    ∀ l : List Entity, List.Pairwise (fun a b => b.start ≤ a.start) (stableSortDesc l) := by
  intro l
  induction l with
  | nil => simp [stableSortDesc]
  | cons a rest ih => exact insertDesc_sorted ih

theorem maskStep_append {A B : List Char} {en : Entity} (hs : A.length ≤ en.start)
    (hss : en.start ≤ en.stop) :
    maskStep (A ++ B) en = A ++ maskStep B (shiftEnt A.length en) := by
  simp only [maskStep, shiftEnt]
  rw [List.take_append_eq_append_take, List.take_of_length_le hs,
    List.drop_append_eq_append_drop, List.drop_eq_nil_of_le (Nat.le_trans hs hss),
    List.nil_append]
  simp [List.append_assoc]

theorem foldl_maskStep_append (A : List Char) :
    ∀ (l : List Entity) (B : List Char),
      (∀ en ∈ l, A.length ≤ en.start ∧ en.start ≤ en.stop) →
      List.foldl maskStep (A ++ B) l = A ++ List.foldl maskStep B (l.map (shiftEnt A.length)) := by
  intro l
  induction l with
  | nil => intro B _; rfl
  | cons en l' ih =>
    intro B h
    have hen := h en (List.mem_cons_self _ _)
    rw [List.foldl_cons, maskStep_append hen.1 hen.2, List.map_cons, List.foldl_cons]
    exact ih _ fun e he => h e (List.mem_cons_of_mem _ he)

theorem foldl_maskStep_splice :
    ∀ (n : Nat) (l : List Entity), l.length ≤ n → ∀ t : List Char,
      List.Pairwise (fun a b => a.stop ≤ b.start) l →
      (∀ en ∈ l, en.start < en.stop ∧ en.stop ≤ t.length) →
      List.foldl maskStep t l.reverse = spliceMasks t l := by
  intro n
  induction n with
  | zero =>
    intro l hl t _ _
    rw [List.length_eq_zero.mp (Nat.le_zero.mp hl)]
    simp [spliceMasks]
  | succ n' ih =>
    intro l hl t hpw hval
    cases l with
    | nil => simp [spliceMasks]
    | cons a l' =>
      rw [List.pairwise_cons] at hpw
      have hva := hval a (List.mem_cons_self _ _)
      have htk : (t.take a.stop).length = a.stop := by
        rw [List.length_take]
        omega
      have hpw2 : List.Pairwise (fun a b => a.stop ≤ b.start) (l'.map (shiftEnt a.stop)) := by
        rw [List.pairwise_map]
        refine hpw.2.imp_of_mem fun {x y} hx hy hxy => ?_
        simp only [shiftEnt]
        omega
      have hval2 : ∀ en ∈ l'.map (shiftEnt a.stop),
          en.start < en.stop ∧ en.stop ≤ (t.drop a.stop).length := by
        intro en hen
        rw [List.mem_map] at hen
        obtain ⟨e, he, rfl⟩ := hen
        have h1 := hpw.1 e he
        have h2 := hval e (List.mem_cons_of_mem _ he)
        simp only [shiftEnt, List.length_drop]
        omega
      have hlen2 : (l'.map (shiftEnt a.stop)).length ≤ n' := by
        rw [List.length_map]
        have hc : l'.length + 1 ≤ n' + 1 := by simpa using hl
        omega
      rw [List.reverse_cons, List.foldl_append, List.foldl_cons, List.foldl_nil]
      have hshift : List.foldl maskStep t l'.reverse =
          t.take a.stop ++ List.foldl maskStep (t.drop a.stop)
            ((l'.reverse).map (shiftEnt (t.take a.stop).length)) := by
        conv_lhs => rw [← List.take_append_drop a.stop t]
        refine foldl_maskStep_append _ _ _ fun en hen => ?_
        have hen' := List.mem_reverse.mp hen
        have h1 := hpw.1 en hen'
        have h2 := (hval en (List.mem_cons_of_mem _ hen')).1
        exact ⟨by omega, by omega⟩
      rw [hshift, htk, List.map_reverse,
        ih (l'.map (shiftEnt a.stop)) hlen2 (t.drop a.stop) hpw2 hval2]
      rw [maskStep]
      have h1 : (t.take a.stop ++ spliceMasks (t.drop a.stop)
          (l'.map (shiftEnt a.stop))).take a.start = t.take a.start := by
        rw [List.take_append_eq_append_take, htk,
          Nat.sub_eq_zero_of_le (Nat.le_of_lt hva.1), List.take_zero, List.append_nil,
          List.take_take, Nat.min_eq_left (Nat.le_of_lt hva.1)]
      have h2 : (t.take a.stop ++ spliceMasks (t.drop a.stop)
          (l'.map (shiftEnt a.stop))).drop a.stop =
          spliceMasks (t.drop a.stop) (l'.map (shiftEnt a.stop)) := by
        rw [List.drop_append_eq_append_drop, htk, Nat.sub_self, List.drop_zero,
          List.drop_eq_nil_of_le (Nat.le_of_eq htk), List.nil_append]
      rw [h1, h2]
      conv_rhs => rw [spliceMasks]

theorem spliceMasks_no_occ :
    ∀ (n : Nat) (l : List Entity), l.length ≤ n → ∀ (t v : List Char),
      v ≠ [] → '[' ∉ v → ']' ∉ v →
      (∀ en ∈ l, ¬ v <:+: maskForType en.ptype) →
      List.Pairwise (fun a b => a.stop ≤ b.start) l →
      (∀ en ∈ l, en.start < en.stop ∧ en.stop ≤ t.length) →
      (∀ p, occursAt v t p → ∃ en ∈ l, p = en.start ∧ p + v.length = en.stop) →
      ∀ p, ¬ occursAt v (spliceMasks t l) p := by
  intro n
  induction n with
  | zero =>
    intro l hl t v _ _ _ _ _ _ hocc p hp
    have hnil : l = [] := List.length_eq_zero.mp (Nat.le_zero.mp hl)
    subst hnil
    rw [spliceMasks] at hp
    obtain ⟨en, hen, -⟩ := hocc p hp
    exact absurd hen (List.not_mem_nil en)
  | succ n' ih =>
    intro l hl t v hvne hlb hrb hmask hpw hval hocc p hp
    cases l with
    | nil =>
      rw [spliceMasks] at hp
      obtain ⟨en, hen, -⟩ := hocc p hp
      exact absurd hen (List.not_mem_nil en)
    | cons a l' =>
      rw [List.pairwise_cons] at hpw
      have hva := hval a (List.mem_cons_self _ _)
      have hvpos : 0 < v.length := List.length_pos.mpr hvne
      rw [spliceMasks] at hp
      have hAlen : (t.take a.start).length = a.start := by
        rw [List.length_take]
        omega
      have hmlen : 0 < (maskForType a.ptype).length :=
        List.length_pos.mpr (maskFor_ne_nil _)
      by_cases h1 : p + v.length ≤ (t.take a.start).length
      · have hA : occursAt v (t.take a.start) p :=
          occursAt_append_left (occursAt_append_left hp
            (by rw [List.length_append]; omega)) h1
        obtain ⟨en, hen, he1, he2⟩ := hocc p (occursAt_take hA)
        rcases List.mem_cons.mp hen with rfl | hen'
        · omega
        · have := hpw.1 en hen'
          omega
      · by_cases h2 : (t.take a.start).length + (maskForType a.ptype).length ≤ p
        · have hR : occursAt v
              (spliceMasks (t.drop a.stop) (l'.map (shiftEnt a.stop)))
              (p - ((t.take a.start).length + (maskForType a.ptype).length)) := by
            have h' := occursAt_append_right hp (by rw [List.length_append]; omega)
            rwa [List.length_append] at h'
          refine ih (l'.map (shiftEnt a.stop)) ?_ (t.drop a.stop) v hvne hlb hrb ?_ ?_ ?_ ?_ _ hR
          · rw [List.length_map]
            have hc : l'.length + 1 ≤ n' + 1 := by simpa using hl
            omega
          · intro en hen
            rw [List.mem_map] at hen
            obtain ⟨e, he, rfl⟩ := hen
            exact hmask e (List.mem_cons_of_mem _ he)
          · rw [List.pairwise_map]
            refine hpw.2.imp_of_mem fun {x y} hx hy hxy => ?_
            simp only [shiftEnt]
            omega
          · intro en hen
            rw [List.mem_map] at hen
            obtain ⟨e, he, rfl⟩ := hen
            have hd1 := hpw.1 e he
            have hd2 := hval e (List.mem_cons_of_mem _ he)
            simp only [shiftEnt, List.length_drop]
            omega
          · intro q hq
            obtain ⟨en, hen, he1, he2⟩ := hocc _ (occursAt_drop.mp hq)
            rcases List.mem_cons.mp hen with rfl | hen'
            · omega
            · have hd1 := hpw.1 en hen'
              refine ⟨shiftEnt a.stop en, List.mem_map_of_mem _ hen', ?_, ?_⟩
              · simp only [shiftEnt]
                omega
              · simp only [shiftEnt]
                omega
        · push_neg at h1 h2
          by_cases h3 : p ≤ (t.take a.start).length
          · have hi : (t.take a.start).length - p < v.length := by omega
            have hchar := occursAt_getElem hp hi
            rw [show p + ((t.take a.start).length - p) = (t.take a.start).length from by omega]
              at hchar
            have hS : ((t.take a.start ++ maskForType a.ptype) ++
                spliceMasks (t.drop a.stop) (l'.map (shiftEnt a.stop)))[(t.take a.start).length]? =
                some '[' := by
              rw [List.getElem?_append_left (by rw [List.length_append]; omega),
                List.getElem?_append_right (Nat.le_refl _), Nat.sub_self]
              exact maskFor_head _
            rw [hS] at hchar
            exact hlb (List.getElem?_mem hchar.symm)
          · push_neg at h3
            by_cases h4 : p + v.length ≤ (t.take a.start).length + (maskForType a.ptype).length
            · have hm : occursAt v (maskForType a.ptype) (p - (t.take a.start).length) := by
                have h' := occursAt_append_left hp (by rw [List.length_append]; omega)
                exact occursAt_append_right h' (by omega)
              exact hmask a (List.mem_cons_self _ _) (infix_of_pref_drop hm)
            · push_neg at h4
              have hi : ((t.take a.start).length + (maskForType a.ptype).length - 1) - p <
                  v.length := by omega
              have hchar := occursAt_getElem hp hi
              rw [show p + (((t.take a.start).length + (maskForType a.ptype).length - 1) - p) =
                  (t.take a.start).length + (maskForType a.ptype).length - 1 from by omega]
                at hchar
              have hS : ((t.take a.start ++ maskForType a.ptype) ++
                  spliceMasks (t.drop a.stop) (l'.map (shiftEnt a.stop)))[
                    (t.take a.start).length + (maskForType a.ptype).length - 1]? =
                  some ']' := by
                rw [List.getElem?_append_left (by rw [List.length_append]; omega),
                  List.getElem?_append_right (by omega),
                  show (t.take a.start).length + (maskForType a.ptype).length - 1 -
                    (t.take a.start).length = (maskForType a.ptype).length - 1 from by omega]
                exact maskFor_last _
              rw [hS] at hchar
              exact hrb (List.getElem?_mem hchar.symm)

/-- C1 counterexample: the phone value `1234567890` is detected once (at
position 15) and classified non-dependent, yet after masking the sanitized
text still contains the substring `1234567890`, because the same value also
occurs embedded in `x1234567890` where the pattern cannot match. -/
theorem c1_cx :
    (detectPiiEntities c1CxText).filter (fun e => !e.is_dependent) =
      [{ value := ("1234567890").data, ptype := PiiType.phone, start := 15, stop := 25,
         is_dependent := false }] ∧
    containsStr (maskNonDependentPii c1CxText
        ((detectPiiEntities c1CxText).filter fun e => !e.is_dependent))
      (("1234567890").data) = true := by
  exact ⟨by decide, by decide⟩

/-- C1 (amended): the sanitized text contains no substring equal to a
non-dependent entity's original value, provided every occurrence of that
value in the original text lies exactly at the span of one of the masked
entities, the masked spans are within bounds and pairwise disjoint, and the
value is free of the mask alphabet (no brackets, not an infix of a mask). -/
theorem c1_masked_no_value (t : List Char) (es : List Entity) (en : Entity)
    (hmem : en ∈ es)
    (hval : ∀ e ∈ es, e.start < e.stop ∧ e.stop ≤ t.length)
    (hdis : List.Pairwise entDisjoint es)
    (hvne : en.value ≠ [])
    (hlb : '[' ∉ en.value) (hrb : ']' ∉ en.value)
    (hmask : ∀ e ∈ es, ¬ en.value <:+: maskForType e.ptype)
    (hocc : ∀ p < t.length + 1, occursAt en.value t p →
      ∃ e ∈ es, p = e.start ∧ p + en.value.length = e.stop) :
    containsStr (maskNonDependentPii t es) en.value = false := by
  have hperm : ∀ x : Entity, x ∈ (stableSortDesc es).reverse ↔ x ∈ es := fun x => by
    rw [List.mem_reverse]
    exact (stableSortDesc_perm es).mem_iff
  have hsorted : List.Pairwise (fun a b : Entity => a.start ≤ b.start)
      (stableSortDesc es).reverse := by
    rw [List.pairwise_reverse]
    exact stableSortDesc_sorted es
  have hsymm : Symmetric entDisjoint := by
    intro a b hab
    rcases hab with h | h
    · exact Or.inr h
    · exact Or.inl h
  have hdis2 : List.Pairwise entDisjoint (stableSortDesc es).reverse := by
    rw [List.pairwise_reverse]
    exact (((stableSortDesc_perm es).pairwise_iff fun {a b} h => hsymm h).mpr hdis).imp
      fun {a b} h => hsymm h
  have hval2 : ∀ e ∈ (stableSortDesc es).reverse, e.start < e.stop ∧ e.stop ≤ t.length :=
    fun e he => hval e ((hperm e).mp he)
  have hchain : List.Pairwise (fun a b : Entity => a.stop ≤ b.start)
      (stableSortDesc es).reverse := by
    refine (hsorted.and hdis2).imp_of_mem fun {a b} ha hb hab => ?_
    have hvb := hval2 b hb
    rcases hab.2 with h | h
    · exact h
    · omega
  have hm : maskNonDependentPii t es = spliceMasks t (stableSortDesc es).reverse := by
    rw [maskNonDependentPii]
    conv_lhs => rw [show stableSortDesc es = ((stableSortDesc es).reverse).reverse from
      (List.reverse_reverse _).symm]
    exact foldl_maskStep_splice _ _ (Nat.le_refl _) t hchain hval2
  rw [hm]
  cases hc : containsStr (spliceMasks t (stableSortDesc es).reverse) en.value with
  | false => rfl
  | true =>
    exfalso
    obtain ⟨p, hp⟩ := containsStr_iff.mp hc
    refine spliceMasks_no_occ _ _ (Nat.le_refl _) t en.value hvne hlb hrb
      (fun e he => hmask e ((hperm e).mp he)) hchain hval2 ?_ p hp
    intro q hq
    have hqb := occursAt_le_len hvne hq
    obtain ⟨e, he, h1, h2⟩ := hocc q (by omega) hq
    exact ⟨e, (hperm e).mpr he, h1, h2⟩

/-- Witness for C1 on a text whose only occurrence of the phone value is
the detected span. -/
theorem c1_masked_no_value_witness :
    containsStr (maskNonDependentPii c1WitText
        ((detectPiiEntities c1WitText).filter fun e => !e.is_dependent))
      (("1234567890").data) = false :=
  c1_masked_no_value c1WitText
    ((detectPiiEntities c1WitText).filter fun e => !e.is_dependent)
    { value := ("1234567890").data, ptype := PiiType.phone, start := 5, stop := 15,
      is_dependent := false }
    (by decide) (by decide) (by decide) (by decide) (by decide) (by decide) (by decide)
    (by decide)
